import Mathlib

/-!
Verification of the bimap core and its serde bridge (bimap-rs).

The repository source under verification provides `src/serde.rs`
(the `Serialize`/`Deserialize` implementations for `BiHashMap` and
`BiBTreeMap`).  The dual-index core (`insert`, `remove_by_left`,
`remove_by_right`, `iter`, `len`, `get_by_left`, `get_by_right`,
`new`, `with_capacity`) is not part of the provided sources, so it is
modelled from the specification (sections 3, 4.1, 4.2, 4.3): each
internal index is an association list, the hash-indexed index writes a
fresh key at the end, the order-indexed index keeps its keys sorted.
-/

/-- Modelled from the spec: lookup in a single-direction index
(`get` of the underlying map collaborator, section 6). -/
def getAssoc {K V : Type} [DecidableEq K] : List (K × V) → K → Option V
  | [], _ => none
  | (k1, v) :: rest, k => if k1 = k then some v else getAssoc rest k

/-- Modelled from the spec: removal of a key from a single-direction
index (`remove` of the underlying map collaborator, section 6). -/
def removeAssoc {K V : Type} [DecidableEq K] : List (K × V) → K → List (K × V)
  | [], _ => []
  | (k1, v) :: rest, k =>
    if k1 = k then removeAssoc rest k else (k1, v) :: removeAssoc rest k

/-- Modelled from the spec: write of a key-value entry into the
hash-indexed single-direction index, overwriting the value when the key
is present (`insert` of the hash-map collaborator, section 6). -/
def putAssoc {K V : Type} [DecidableEq K] : List (K × V) → K → V → List (K × V)
  | [], k, v => [(k, v)]
  | (k1, v1) :: rest, k, v =>
    if k1 = k then (k, v) :: rest else (k1, v1) :: putAssoc rest k v

/-- Modelled from the spec: write of a key-value entry into the
order-indexed single-direction index, keeping keys sorted and
overwriting the value when the key is present (`insert` of the
ordered-tree collaborator, section 6). -/
def putSorted {K V : Type} [LinearOrder K] : List (K × V) → K → V → List (K × V)
  | [], k, v => [(k, v)]
  | (k1, v1) :: rest, k, v =>
    if k < k1 then (k, v) :: (k1, v1) :: rest
    else if k1 = k then (k, v) :: rest
    else (k1, v1) :: putSorted rest k v

section AssocLemmas

variable {K V : Type} [DecidableEq K]

theorem getAssoc_eq_none {m : List (K × V)} {k : K} :
    getAssoc m k = none ↔ k ∉ m.map Prod.fst := by
  induction m with
  | nil => simp [getAssoc]
  | cons p rest ih =>
    obtain ⟨k1, v⟩ := p
    by_cases h : k1 = k <;> simp [getAssoc, h, ih, Ne.symm]

theorem mem_of_getAssoc {m : List (K × V)} {k : K} {v : V}
    (h : getAssoc m k = some v) : (k, v) ∈ m := by
  induction m with
  | nil => simp [getAssoc] at h
  | cons p rest ih =>
    obtain ⟨k1, v1⟩ := p
    by_cases hk : k1 = k
    · subst hk
      simp [getAssoc] at h
      simp [h]
    · simp [getAssoc, hk] at h
      exact List.mem_cons_of_mem _ (ih h)

theorem getAssoc_of_mem {m : List (K × V)} {k : K} {v : V}
    (hm : (k, v) ∈ m) (hnd : (m.map Prod.fst).Nodup) :
    getAssoc m k = some v := by
  induction m with
  | nil => simp at hm
  | cons p rest ih =>
    obtain ⟨k1, v1⟩ := p
    simp only [List.map_cons, List.nodup_cons] at hnd
    rcases List.mem_cons.mp hm with h | h
    · cases h
      simp [getAssoc]
    · have hk : k1 ≠ k := by
        rintro rfl
        exact hnd.1 (List.mem_map_of_mem Prod.fst h)
      simp [getAssoc, hk, ih h hnd.2]

theorem mem_removeAssoc {m : List (K × V)} {k : K} {p : K × V} :
    p ∈ removeAssoc m k ↔ p ∈ m ∧ p.1 ≠ k := by
  induction m with
  | nil => simp [removeAssoc]
  | cons q rest ih =>
    obtain ⟨k1, v1⟩ := q
    by_cases h : k1 = k
    · subst h
      rw [show removeAssoc ((k1, v1) :: rest) k1 = removeAssoc rest k1 by
        simp [removeAssoc]]
      rw [ih]
      constructor
      · rintro ⟨hp, hne⟩
        exact ⟨List.mem_cons_of_mem _ hp, hne⟩
      · rintro ⟨hp, hne⟩
        rcases List.mem_cons.mp hp with h1 | h1
        · exact absurd (by rw [h1]) hne
        · exact ⟨h1, hne⟩
    · rw [show removeAssoc ((k1, v1) :: rest) k = (k1, v1) :: removeAssoc rest k by
        simp [removeAssoc, h]]
      constructor
      · intro hp
        rcases List.mem_cons.mp hp with h1 | h1
        · exact ⟨h1 ▸ List.mem_cons_self _ _, by rw [h1]; exact h⟩
        · obtain ⟨h2, h3⟩ := ih.mp h1
          exact ⟨List.mem_cons_of_mem _ h2, h3⟩
      · rintro ⟨hp, hne⟩
        rcases List.mem_cons.mp hp with h1 | h1
        · exact h1 ▸ List.mem_cons_self _ _
        · exact List.mem_cons_of_mem _ (ih.mpr ⟨h1, hne⟩)

theorem removeAssoc_sublist (m : List (K × V)) (k : K) :
    (removeAssoc m k).Sublist m := by
  induction m with
  | nil => simp [removeAssoc]
  | cons q rest ih =>
    obtain ⟨k1, v1⟩ := q
    by_cases h : k1 = k
    · simpa [removeAssoc, h] using ih.cons (k1, v1)
    · simpa [removeAssoc, h] using ih.cons₂ (k1, v1)

theorem getAssoc_removeAssoc_self (m : List (K × V)) (k : K) :
    getAssoc (removeAssoc m k) k = none := by
  rw [getAssoc_eq_none]
  intro hmem
  obtain ⟨p, hp, hfst⟩ := List.mem_map.mp hmem
  exact (mem_removeAssoc.mp hp).2 hfst

theorem getAssoc_removeAssoc_ne {m : List (K × V)} {k k1 : K}
    (h : k1 ≠ k) : getAssoc (removeAssoc m k) k1 = getAssoc m k1 := by
  induction m with
  | nil => simp [removeAssoc]
  | cons q rest ih =>
    obtain ⟨k2, v2⟩ := q
    by_cases h2 : k2 = k
    · subst h2
      simp [removeAssoc, getAssoc, Ne.symm h, ih]
    · by_cases h3 : k2 = k1
      · simp [removeAssoc, h2, getAssoc, h3, h]
      · simp [removeAssoc, h2, getAssoc, h3, ih]

end AssocLemmas

section PutAssocLemmas

variable {K V : Type} [DecidableEq K]

theorem getAssoc_putAssoc_self (m : List (K × V)) (k : K) (v : V) :
    getAssoc (putAssoc m k v) k = some v := by
  induction m with
  | nil => simp [putAssoc, getAssoc]
  | cons q rest ih =>
    obtain ⟨k1, v1⟩ := q
    by_cases h : k1 = k
    · simp [putAssoc, h, getAssoc]
    · simp [putAssoc, h, getAssoc, ih]

theorem getAssoc_putAssoc_ne {m : List (K × V)} {k k2 : K} {v : V}
    (h : k2 ≠ k) : getAssoc (putAssoc m k v) k2 = getAssoc m k2 := by
  induction m with
  | nil => simp [putAssoc, getAssoc, Ne.symm h]
  | cons q rest ih =>
    obtain ⟨k1, v1⟩ := q
    by_cases h1 : k1 = k
    · subst h1
      simp [putAssoc, getAssoc, Ne.symm h]
    · by_cases h2 : k1 = k2
      · subst h2
        simp [putAssoc, h1, getAssoc]
      · simp [putAssoc, h1, getAssoc, h2, ih]

theorem keys_putAssoc_subset (m : List (K × V)) (k : K) (v : V) :
    ((putAssoc m k v).map Prod.fst) ⊆ k :: m.map Prod.fst := by
  induction m with
  | nil => simp [putAssoc]
  | cons q rest ih =>
    obtain ⟨k1, v1⟩ := q
    by_cases h : k1 = k
    · subst h
      simp [putAssoc]
    · simp only [putAssoc, if_neg h, List.map_cons]
      intro x hx
      rcases List.mem_cons.mp hx with h1 | h1
      · exact List.mem_cons_of_mem _ (h1 ▸ List.mem_cons_self _ _)
      · rcases List.mem_cons.mp (ih h1) with h2 | h2
        · exact h2 ▸ List.mem_cons_self _ _
        · exact List.mem_cons_of_mem _ (List.mem_cons_of_mem _ h2)

theorem nodup_keys_putAssoc {m : List (K × V)} (k : K) (v : V)
    (hnd : (m.map Prod.fst).Nodup) : ((putAssoc m k v).map Prod.fst).Nodup := by
  induction m with
  | nil => simp [putAssoc]
  | cons q rest ih =>
    obtain ⟨k1, v1⟩ := q
    simp only [List.map_cons, List.nodup_cons] at hnd
    by_cases h : k1 = k
    · subst h
      rw [show putAssoc ((k1, v1) :: rest) k1 v = (k1, v) :: rest by
        simp [putAssoc]]
      simp only [List.map_cons, List.nodup_cons]
      exact hnd
    · simp only [putAssoc, if_neg h, List.map_cons, List.nodup_cons]
      refine ⟨fun hmem => ?_, ih hnd.2⟩
      rcases List.mem_cons.mp (keys_putAssoc_subset rest k v hmem) with h1 | h1
      · exact h h1
      · exact hnd.1 h1

theorem mem_putAssoc {m : List (K × V)} {k : K} {v : V} {p : K × V}
    (hnd : (m.map Prod.fst).Nodup) :
    p ∈ putAssoc m k v ↔ p = (k, v) ∨ (p ∈ m ∧ p.1 ≠ k) := by
  induction m with
  | nil => simp [putAssoc]
  | cons q rest ih =>
    obtain ⟨k1, v1⟩ := q
    simp only [List.map_cons, List.nodup_cons] at hnd
    by_cases h : k1 = k
    · subst h
      rw [show putAssoc ((k1, v1) :: rest) k1 v = (k1, v) :: rest by
        simp [putAssoc]]
      simp only [List.mem_cons]
      constructor
      · rintro (h1 | h1)
        · exact Or.inl h1
        · refine Or.inr ⟨Or.inr h1, fun hk => ?_⟩
          exact hnd.1 (hk ▸ List.mem_map_of_mem Prod.fst h1)
      · rintro (h1 | ⟨h1 | h1, h2⟩)
        · exact Or.inl h1
        · exact absurd (by rw [h1]) h2
        · exact Or.inr h1
    · simp only [putAssoc, if_neg h, List.mem_cons, ih hnd.2]
      constructor
      · rintro (h1 | h1 | ⟨h1, h2⟩)
        · exact Or.inr ⟨Or.inl h1, by rw [h1]; exact h⟩
        · exact Or.inl h1
        · exact Or.inr ⟨Or.inr h1, h2⟩
      · rintro (h1 | ⟨h1 | h1, h2⟩)
        · exact Or.inr (Or.inl h1)
        · exact Or.inl h1
        · exact Or.inr (Or.inr ⟨h1, h2⟩)

theorem putAssoc_of_not_mem {m : List (K × V)} {k : K} (v : V)
    (h : k ∉ m.map Prod.fst) : putAssoc m k v = m ++ [(k, v)] := by
  induction m with
  | nil => simp [putAssoc]
  | cons q rest ih =>
    obtain ⟨k1, v1⟩ := q
    simp only [List.map_cons, List.mem_cons] at h
    push_neg at h
    simp [putAssoc, Ne.symm h.1, ih h.2]

end PutAssocLemmas

section PutSortedLemmas

variable {K V : Type} [LinearOrder K]

theorem getAssoc_putSorted_self (m : List (K × V)) (k : K) (v : V) :
    getAssoc (putSorted m k v) k = some v := by
  induction m with
  | nil => simp [putSorted, getAssoc]
  | cons q rest ih =>
    obtain ⟨k1, v1⟩ := q
    by_cases hlt : k < k1
    · simp [putSorted, hlt, getAssoc]
    · by_cases h : k1 = k
      · simp [putSorted, hlt, h, getAssoc]
      · simp [putSorted, hlt, h, getAssoc, ih]

theorem getAssoc_putSorted_ne {m : List (K × V)} {k k2 : K} {v : V}
    (h : k2 ≠ k) : getAssoc (putSorted m k v) k2 = getAssoc m k2 := by
  induction m with
  | nil => simp [putSorted, getAssoc, Ne.symm h]
  | cons q rest ih =>
    obtain ⟨k1, v1⟩ := q
    by_cases hlt : k < k1
    · simp [putSorted, hlt, getAssoc, Ne.symm h]
    · by_cases h1 : k1 = k
      · subst h1
        simp [putSorted, hlt, getAssoc, Ne.symm h]
      · by_cases h2 : k1 = k2
        · subst h2
          simp [putSorted, hlt, h1, getAssoc]
        · simp [putSorted, hlt, h1, getAssoc, h2, ih]

theorem keys_putSorted_subset (m : List (K × V)) (k : K) (v : V) :
    ((putSorted m k v).map Prod.fst) ⊆ k :: m.map Prod.fst := by
  induction m with
  | nil => simp [putSorted]
  | cons q rest ih =>
    obtain ⟨k1, v1⟩ := q
    by_cases hlt : k < k1
    · simp [putSorted, hlt]
    · by_cases h : k1 = k
      · subst h
        rw [show putSorted ((k1, v1) :: rest) k1 v = (k1, v) :: rest by
          simp [putSorted, hlt]]
        simp
      · simp only [putSorted, if_neg hlt, if_neg h, List.map_cons]
        intro x hx
        rcases List.mem_cons.mp hx with h1 | h1
        · exact List.mem_cons_of_mem _ (h1 ▸ List.mem_cons_self _ _)
        · rcases List.mem_cons.mp (ih h1) with h2 | h2
          · exact h2 ▸ List.mem_cons_self _ _
          · exact List.mem_cons_of_mem _ (List.mem_cons_of_mem _ h2)

theorem putSorted_pairwise {m : List (K × V)} (k : K) (v : V)
    (hs : (m.map Prod.fst).Pairwise (· < ·)) :
    ((putSorted m k v).map Prod.fst).Pairwise (· < ·) := by
  induction m with
  | nil => simp [putSorted]
  | cons q rest ih =>
    obtain ⟨k1, v1⟩ := q
    simp only [List.map_cons, List.pairwise_cons] at hs
    by_cases hlt : k < k1
    · simp only [putSorted, if_pos hlt, List.map_cons, List.pairwise_cons]
      refine ⟨?_, hs⟩
      intro b hb
      rcases List.mem_cons.mp hb with h1 | h1
      · exact h1 ▸ hlt
      · exact lt_trans hlt (hs.1 b h1)
    · by_cases h : k1 = k
      · subst h
        rw [show putSorted ((k1, v1) :: rest) k1 v = (k1, v) :: rest by
          simp [putSorted, hlt]]
        simp only [List.map_cons, List.pairwise_cons]
        exact hs
      · simp only [putSorted, if_neg hlt, if_neg h, List.map_cons,
          List.pairwise_cons]
        refine ⟨?_, ih hs.2⟩
        intro b hb
        rcases List.mem_cons.mp (keys_putSorted_subset rest k v hb) with h1 | h1
        · subst h1
          exact lt_of_le_of_ne (not_lt.mp hlt) h
        · exact hs.1 b h1

theorem putSorted_perm {m : List (K × V)} {k : K} (v : V)
    (h : k ∉ m.map Prod.fst) : (putSorted m k v).Perm ((k, v) :: m) := by
  induction m with
  | nil => simp [putSorted]
  | cons q rest ih =>
    obtain ⟨k1, v1⟩ := q
    simp only [List.map_cons, List.mem_cons] at h
    push_neg at h
    by_cases hlt : k < k1
    · simp [putSorted, hlt]
    · simp only [putSorted, if_neg hlt, if_neg (Ne.symm h.1)]
      exact ((ih h.2).cons (k1, v1)).trans (List.Perm.swap (k, v) (k1, v1) rest)

end PutSortedLemmas

/-- Modelled from the spec: purge the stale mirror entry (glossary)
whose key is the value the probed opposite index reported, if any
(section 4.2). -/
def purgeStale {K V : Type} [DecidableEq K] (idx : List (K × V))
    (stale : Option K) : List (K × V) :=
  match stale with
  | some k => removeAssoc idx k
  | none => idx

theorem purgeStale_sublist {K V : Type} [DecidableEq K]
    (idx : List (K × V)) (stale : Option K) :
    (purgeStale idx stale).Sublist idx := by
  cases stale with
  | none => exact List.Sublist.refl _
  | some k => exact removeAssoc_sublist idx k

/-- Modelled from the spec: the result enumeration of `insert`
(section 4.2): `Neither`, `Left old_r`, `Right old_l`, `Both old_r old_l`. -/
inductive Overwritten (L R : Type) where
  | Neither : Overwritten L R
  | Left : R → Overwritten L R
  | Right : L → Overwritten L R
  | Both : R → L → Overwritten L R

/-- Modelled from the spec: the hash-indexed bimap variant
(`BiHashMap`, sections 2 and 3), two internal single-direction indexes
plus the capacity of the underlying hash indexes (the capacity-hint
constructor of section 4.1 pre-sizes it; it never affects contents). -/
structure BiHashMap (L R : Type) where
  left_to_right : List (L × R)
  right_to_left : List (R × L)
  capacity : Nat

/-- Modelled from the spec: the order-indexed bimap variant
(`BiBTreeMap`, sections 2 and 3); its indexes keep keys sorted and it
has no meaningful pre-sizing (section 4.1). -/
structure BiBTreeMap (L R : Type) where
  left_to_right : List (L × R)
  right_to_left : List (R × L)

/-- Modelled from the spec: `new` creates an empty bimap (section 3). -/
def BiHashMap.new {L R : Type} : BiHashMap L R := ⟨[], [], 0⟩

/-- Modelled from the spec: the capacity-hint constructor
(section 4.1); only the capacity differs from `new`. -/
def BiHashMap.with_capacity {L R : Type} (s : Nat) : BiHashMap L R := ⟨[], [], s⟩

/-- Modelled from the spec: `len` (section 4.1). -/
def BiHashMap.len {L R : Type} (m : BiHashMap L R) : Nat :=
  m.left_to_right.length

/-- Modelled from the spec: `iter` yields the (L, R) pairs in the
core's iteration order (section 4.3). -/
def BiHashMap.iter {L R : Type} (m : BiHashMap L R) : List (L × R) :=
  m.left_to_right

/-- Modelled from the spec: `get_by_left` (section 4.1). -/
def BiHashMap.get_by_left {L R : Type} [DecidableEq L] (m : BiHashMap L R)
    (l : L) : Option R :=
  getAssoc m.left_to_right l

/-- Modelled from the spec: `get_by_right` (section 4.1). -/
def BiHashMap.get_by_right {L R : Type} [DecidableEq R] (m : BiHashMap L R)
    (r : R) : Option L :=
  getAssoc m.right_to_left r

/-- Modelled from the spec: `insert` (section 4.2).  Probe both
indexes; if `left_to_right` contains `l`, purge the stale mirror entry
of its old right value from `right_to_left`; if `right_to_left`
contains `r`, purge the stale mirror entry of its old left value from
`left_to_right`; only then write the new pair into both indexes.  The
returned `Overwritten` report is `BiHashMap.insert_report`. -/
def BiHashMap.insert {L R : Type} [DecidableEq L] [DecidableEq R]
    (m : BiHashMap L R) (l : L) (r : R) : BiHashMap L R :=
  let rtl1 := purgeStale m.right_to_left (getAssoc m.left_to_right l)
  let ltr1 := purgeStale m.left_to_right (getAssoc m.right_to_left r)
  { left_to_right := putAssoc ltr1 l r
    right_to_left := putAssoc rtl1 r l
    capacity := m.capacity }

/-- Modelled from the spec: the `Overwritten` value returned by
`insert` (section 4.2), reported alongside the map transformation
`BiHashMap.insert`. -/
def BiHashMap.insert_report {L R : Type} [DecidableEq L] [DecidableEq R]
    (m : BiHashMap L R) (l : L) (r : R) : Overwritten L R :=
  match getAssoc m.left_to_right l, getAssoc m.right_to_left r with
  | none, none => Overwritten.Neither
  | some old_r, none => Overwritten.Left old_r
  | none, some old_l => Overwritten.Right old_l
  | some old_r, some old_l => Overwritten.Both old_r old_l

/-- Modelled from the spec: `remove_by_left` (section 4.2): locate the
pair through the left index, remove it from both indexes, return the
removed pair, or return nothing and leave the map unchanged. -/
def BiHashMap.remove_by_left {L R : Type} [DecidableEq L] [DecidableEq R]
    (m : BiHashMap L R) (l : L) : BiHashMap L R × Option (L × R) :=
  match getAssoc m.left_to_right l with
  | none => (m, none)
  | some r =>
    ({ left_to_right := removeAssoc m.left_to_right l
       right_to_left := removeAssoc m.right_to_left r
       capacity := m.capacity }, some (l, r))

/-- Modelled from the spec: `remove_by_right` (section 4.2). -/
def BiHashMap.remove_by_right {L R : Type} [DecidableEq L] [DecidableEq R]
    (m : BiHashMap L R) (r : R) : BiHashMap L R × Option (L × R) :=
  match getAssoc m.right_to_left r with
  | none => (m, none)
  | some l =>
    ({ left_to_right := removeAssoc m.left_to_right l
       right_to_left := removeAssoc m.right_to_left r
       capacity := m.capacity }, some (l, r))

/-- Modelled from the spec: `new` for the order-indexed variant. -/
def BiBTreeMap.new {L R : Type} : BiBTreeMap L R := ⟨[], []⟩

/-- Modelled from the spec: `len` for the order-indexed variant. -/
def BiBTreeMap.len {L R : Type} (m : BiBTreeMap L R) : Nat :=
  m.left_to_right.length

/-- Modelled from the spec: `iter` for the order-indexed variant
(section 4.3, ascending left-key order: the index stores its entries
sorted by key). -/
def BiBTreeMap.iter {L R : Type} (m : BiBTreeMap L R) : List (L × R) :=
  m.left_to_right

/-- Modelled from the spec: `get_by_left` for the order-indexed variant. -/
def BiBTreeMap.get_by_left {L R : Type} [LinearOrder L] (m : BiBTreeMap L R)
    (l : L) : Option R :=
  getAssoc m.left_to_right l

/-- Modelled from the spec: `get_by_right` for the order-indexed variant. -/
def BiBTreeMap.get_by_right {L R : Type} [LinearOrder R] (m : BiBTreeMap L R)
    (r : R) : Option L :=
  getAssoc m.right_to_left r

/-- Modelled from the spec: `insert` for the order-indexed variant
(section 4.2, same purge-then-write protocol as the hash variant; the
writes keep the keys of each index sorted). -/
def BiBTreeMap.insert {L R : Type} [LinearOrder L] [LinearOrder R]
    (m : BiBTreeMap L R) (l : L) (r : R) : BiBTreeMap L R :=
  let rtl1 := purgeStale m.right_to_left (getAssoc m.left_to_right l)
  let ltr1 := purgeStale m.left_to_right (getAssoc m.right_to_left r)
  { left_to_right := putSorted ltr1 l r
    right_to_left := putSorted rtl1 r l }

/-- From src/serde.rs, `BiHashMap::serialize`: the serializer receives
exactly the sequence of pairs produced by `self.iter()`
(`ser.collect_map(self.iter())`); the abstract encoder output is that
pair sequence, with no extra metadata. -/
def BiHashMap.serialize {L R : Type} (m : BiHashMap L R) : List (L × R) :=
  m.iter

/-- From src/serde.rs, `BiBTreeMap::serialize`
(`ser.collect_map(self.iter())`). -/
def BiBTreeMap.serialize {L R : Type} (m : BiBTreeMap L R) : List (L × R) :=
  m.iter

/-- From src/serde.rs, the entry loop of `BiHashMapVisitor::visit_map`:
`while let Some((l, r)) = entries.next_entry()? { map.insert(l, r); }`.
The abstract decoder is a list of fallible entries; an error entry is
propagated immediately by the question-mark operator, the end of the
list is the end of the serialized map. -/
def visitLoopHash {L R E : Type} [DecidableEq L] [DecidableEq R]
    (m : BiHashMap L R) : List (Except E (L × R)) → Except E (BiHashMap L R)
  | [] => Except.ok m
  | Except.error e :: _ => Except.error e
  | Except.ok (l, r) :: rest => visitLoopHash (m.insert l r) rest

/-- From src/serde.rs, `BiHashMapVisitor::visit_map`: start from
`with_capacity(s)` when the decoder supplies the size hint `s`, from
`new()` otherwise, then run the entry loop. -/
def BiHashMapVisitor.visit_map {L R E : Type} [DecidableEq L] [DecidableEq R]
    (hint : Option Nat) (entries : List (Except E (L × R))) :
    Except E (BiHashMap L R) :=
  visitLoopHash
    (match hint with
      | some s => BiHashMap.with_capacity s
      | none => BiHashMap.new)
    entries

/-- From src/serde.rs, the entry loop of `BiBTreeMapVisitor::visit_map`. -/
def visitLoopBTree {L R E : Type} [LinearOrder L] [LinearOrder R]
    (m : BiBTreeMap L R) : List (Except E (L × R)) → Except E (BiBTreeMap L R)
  | [] => Except.ok m
  | Except.error e :: _ => Except.error e
  | Except.ok (l, r) :: rest => visitLoopBTree (m.insert l r) rest

/-- From src/serde.rs, `BiBTreeMapVisitor::visit_map`: start from
`BiBTreeMap::new()` and run the entry loop.  The decoder's size hint is
available to the visitor but never consulted, hence the ignored
argument. -/
def BiBTreeMapVisitor.visit_map {L R E : Type} [LinearOrder L] [LinearOrder R]
    (hint : Option Nat) (entries : List (Except E (L × R))) :
    Except E (BiBTreeMap L R) :=
  let _ := hint
  visitLoopBTree BiBTreeMap.new entries

/-- Invariants I1 (equal cardinality) and I2 (mutual mirroring) of the
spec (section 3), stated on a pair of internal indexes, together with
key uniqueness of each index (every single-direction map holds one
entry per key). -/
def WFpair {L R : Type} [DecidableEq L] [DecidableEq R]
    (ltr : List (L × R)) (rtl : List (R × L)) : Prop :=
  (ltr.map Prod.fst).Nodup ∧ (rtl.map Prod.fst).Nodup ∧
  (∀ p ∈ ltr, getAssoc rtl p.2 = some p.1) ∧
  (∀ q ∈ rtl, getAssoc ltr q.2 = some q.1) ∧
  ltr.length = rtl.length

/-- Invariants I1 and I2 for a hash-indexed bimap. -/
def BiHashMap.WF {L R : Type} [DecidableEq L] [DecidableEq R]
    (m : BiHashMap L R) : Prop :=
  WFpair m.left_to_right m.right_to_left

/-- Invariants I1 and I2 for an order-indexed bimap. -/
def BiBTreeMap.WF {L R : Type} [LinearOrder L] [LinearOrder R]
    (m : BiBTreeMap L R) : Prop :=
  WFpair m.left_to_right m.right_to_left

/-- Bimap equality of the spec (section 3): two bimaps are equal iff
they hold the same set of (L, R) pairs. -/
def samePairs {L R : Type} (xs ys : List (L × R)) : Prop :=
  ∀ p : L × R, p ∈ xs ↔ p ∈ ys

section MirrorLemmas

variable {K1 K2 : Type} [DecidableEq K1] [DecidableEq K2]

omit [DecidableEq K1] in
theorem length_le_of_mirror {A : List (K1 × K2)} {B : List (K2 × K1)}
    (hA : (A.map Prod.fst).Nodup)
    (mAB : ∀ p ∈ A, getAssoc B p.2 = some p.1) :
    A.length ≤ B.length := by
  have hndA : A.Nodup := hA.of_map
  have hndS : (A.map Prod.swap).Nodup := hndA.map Prod.swap_injective
  have hsub : A.map Prod.swap ⊆ B := by
    intro q hq
    obtain ⟨p, hp, rfl⟩ := List.mem_map.mp hq
    exact mem_of_getAssoc (mAB p hp)
  calc A.length = (A.map Prod.swap).length := (List.length_map _ _).symm
    _ ≤ B.length := (List.subperm_of_subset hndS hsub).length_le

omit [DecidableEq K1] in
theorem snd_nodup_of_mirror {A : List (K1 × K2)} {B : List (K2 × K1)}
    (hA : (A.map Prod.fst).Nodup)
    (mAB : ∀ p ∈ A, getAssoc B p.2 = some p.1) :
    (A.map Prod.snd).Nodup := by
  refine List.Nodup.map_on ?_ hA.of_map
  intro x hx y hy hxy
  have h1 := mAB x hx
  have h2 := mAB y hy
  rw [hxy, h2] at h1
  exact Prod.ext (Option.some.inj h1).symm hxy

theorem insert_mirror_step (A : List (K1 × K2)) (B : List (K2 × K1))
    (k1 : K1) (k2 : K2)
    (hA : (A.map Prod.fst).Nodup)
    (mAB : ∀ p ∈ A, getAssoc B p.2 = some p.1) :
    ∀ p ∈ putAssoc (purgeStale A (getAssoc B k2)) k1 k2,
      getAssoc (putAssoc (purgeStale B (getAssoc A k1)) k2 k1) p.2 = some p.1 := by
  intro p hp
  have hsubA : (purgeStale A (getAssoc B k2)).Sublist A :=
    purgeStale_sublist A _
  have hA1 : ((purgeStale A (getAssoc B k2)).map Prod.fst).Nodup :=
    hA.sublist (hsubA.map Prod.fst)
  rcases (mem_putAssoc hA1).mp hp with rfl | ⟨hpA1, hpne⟩
  · exact getAssoc_putAssoc_self _ _ _
  · have hpA : p ∈ A := hsubA.subset hpA1
    have hp2 : p.2 ≠ k2 := by
      intro h
      have hB2 := mAB p hpA
      rw [h] at hB2
      rw [show purgeStale A (getAssoc B k2) = removeAssoc A p.1 by
        rw [hB2]; rfl] at hpA1
      exact (mem_removeAssoc.mp hpA1).2 rfl
    rw [getAssoc_putAssoc_ne hp2]
    cases hA2 : getAssoc A k1 with
    | none => simpa [purgeStale] using mAB p hpA
    | some j =>
      have hj : (k1, j) ∈ A := mem_of_getAssoc hA2
      have hne : p.2 ≠ j := by
        intro h
        have h1 := mAB _ hj
        have h2 := mAB p hpA
        rw [h, h1] at h2
        exact hpne (Option.some.inj h2).symm
      simp only [purgeStale]
      rw [getAssoc_removeAssoc_ne hne]
      exact mAB p hpA

theorem remove_mirror_stepA (A : List (K1 × K2)) (B : List (K2 × K1))
    (k1 : K1) (k2 : K2)
    (mAB : ∀ p ∈ A, getAssoc B p.2 = some p.1)
    (h : getAssoc A k1 = some k2) :
    ∀ p ∈ removeAssoc A k1, getAssoc (removeAssoc B k2) p.2 = some p.1 := by
  intro p hp
  obtain ⟨hpA, hpne⟩ := mem_removeAssoc.mp hp
  have hp2 : p.2 ≠ k2 := by
    intro heq
    have h1 := mAB _ (mem_of_getAssoc h)
    have h2 := mAB p hpA
    rw [heq, h1] at h2
    exact hpne (Option.some.inj h2).symm
  rw [getAssoc_removeAssoc_ne hp2]
  exact mAB p hpA

theorem remove_mirror_stepB (A : List (K1 × K2)) (B : List (K2 × K1))
    (k1 : K1) (k2 : K2)
    (mBA : ∀ q ∈ B, getAssoc A q.2 = some q.1)
    (h : getAssoc A k1 = some k2) :
    ∀ q ∈ removeAssoc B k2, getAssoc (removeAssoc A k1) q.2 = some q.1 := by
  intro q hq
  obtain ⟨hqB, hqne⟩ := mem_removeAssoc.mp hq
  have hq2 : q.2 ≠ k1 := by
    intro heq
    have h2 := mBA q hqB
    rw [heq, h] at h2
    exact hqne (Option.some.inj h2).symm
  rw [getAssoc_removeAssoc_ne hq2]
  exact mBA q hqB

end MirrorLemmas

theorem wfpair_of_parts {L R : Type} [DecidableEq L] [DecidableEq R]
    {ltr : List (L × R)} {rtl : List (R × L)}
    (h1 : (ltr.map Prod.fst).Nodup) (h2 : (rtl.map Prod.fst).Nodup)
    (h3 : ∀ p ∈ ltr, getAssoc rtl p.2 = some p.1)
    (h4 : ∀ q ∈ rtl, getAssoc ltr q.2 = some q.1) : WFpair ltr rtl :=
  ⟨h1, h2, h3, h4,
    le_antisymm (length_le_of_mirror h1 h3) (length_le_of_mirror h2 h4)⟩

theorem wf_insert_hash {L R : Type} [DecidableEq L] [DecidableEq R]
    {m : BiHashMap L R} (h : m.WF) (l : L) (r : R) : (m.insert l r).WF := by
  obtain ⟨h1, h2, h3, h4, _⟩ := h
  refine wfpair_of_parts ?_ ?_ ?_ ?_
  · exact nodup_keys_putAssoc l r
      (h1.sublist ((purgeStale_sublist _ _).map Prod.fst))
  · exact nodup_keys_putAssoc r l
      (h2.sublist ((purgeStale_sublist _ _).map Prod.fst))
  · exact insert_mirror_step m.left_to_right m.right_to_left l r h1 h3
  · exact insert_mirror_step m.right_to_left m.left_to_right r l h2 h4

theorem wf_remove_by_left_hash {L R : Type} [DecidableEq L] [DecidableEq R]
    {m : BiHashMap L R} (h : m.WF) (l : L) : (m.remove_by_left l).1.WF := by
  obtain ⟨h1, h2, h3, h4, _⟩ := h
  rw [BiHashMap.remove_by_left]
  cases hg : getAssoc m.left_to_right l with
  | none => exact wfpair_of_parts h1 h2 h3 h4
  | some r =>
    refine wfpair_of_parts ?_ ?_ ?_ ?_
    · exact h1.sublist ((removeAssoc_sublist _ _).map Prod.fst)
    · exact h2.sublist ((removeAssoc_sublist _ _).map Prod.fst)
    · exact remove_mirror_stepA m.left_to_right m.right_to_left l r h3 hg
    · exact remove_mirror_stepB m.left_to_right m.right_to_left l r h4 hg

theorem wf_remove_by_right_hash {L R : Type} [DecidableEq L] [DecidableEq R]
    {m : BiHashMap L R} (h : m.WF) (r : R) : (m.remove_by_right r).1.WF := by
  obtain ⟨h1, h2, h3, h4, _⟩ := h
  rw [BiHashMap.remove_by_right]
  cases hg : getAssoc m.right_to_left r with
  | none => exact wfpair_of_parts h1 h2 h3 h4
  | some l =>
    refine wfpair_of_parts ?_ ?_ ?_ ?_
    · exact h1.sublist ((removeAssoc_sublist _ _).map Prod.fst)
    · exact h2.sublist ((removeAssoc_sublist _ _).map Prod.fst)
    · exact remove_mirror_stepB m.right_to_left m.left_to_right r l h3 hg
    · exact remove_mirror_stepA m.right_to_left m.left_to_right r l h4 hg

/-- An operation of the mutation protocol (section 4.2): one `insert`,
`remove_by_left` or `remove_by_right` call. -/
inductive BiOp (L R : Type) where
  | ins (l : L) (r : R) : BiOp L R
  | rml (l : L) : BiOp L R
  | rmr (r : R) : BiOp L R

/-- Apply one mutation-protocol operation to a hash-indexed bimap. -/
def BiHashMap.step {L R : Type} [DecidableEq L] [DecidableEq R]
    (m : BiHashMap L R) : BiOp L R → BiHashMap L R
  | BiOp.ins l r => m.insert l r
  | BiOp.rml l => (m.remove_by_left l).1
  | BiOp.rmr r => (m.remove_by_right r).1

/-- Apply a sequence of mutation-protocol operations in order. -/
def BiHashMap.applyOps {L R : Type} [DecidableEq L] [DecidableEq R]
    (m : BiHashMap L R) (ops : List (BiOp L R)) : BiHashMap L R :=
  ops.foldl BiHashMap.step m

theorem wf_step_hash {L R : Type} [DecidableEq L] [DecidableEq R]
    {m : BiHashMap L R} (h : m.WF) (op : BiOp L R) : (m.step op).WF := by
  cases op with
  | ins l r => exact wf_insert_hash h l r
  | rml l => exact wf_remove_by_left_hash h l
  | rmr r => exact wf_remove_by_right_hash h r

theorem wf_applyOps_hash {L R : Type} [DecidableEq L] [DecidableEq R]
    {m : BiHashMap L R} (h : m.WF) (ops : List (BiOp L R)) :
    (m.applyOps ops).WF := by
  induction ops generalizing m with
  | nil => exact h
  | cons op rest ih => exact ih (wf_step_hash h op)

theorem wf_new_hash {L R : Type} [DecidableEq L] [DecidableEq R] :
    (BiHashMap.new (L := L) (R := R)).WF := by
  refine ⟨?_, ?_, ?_, ?_, rfl⟩ <;> simp [BiHashMap.new]

theorem wf_with_capacity_hash {L R : Type} [DecidableEq L] [DecidableEq R]
    (s : Nat) : (BiHashMap.with_capacity (L := L) (R := R) s).WF := by
  refine ⟨?_, ?_, ?_, ?_, rfl⟩ <;> simp [BiHashMap.with_capacity]

/-- Replay of the deserialization protocol (section 4.4): starting
from a given bimap, call `insert` once per pair, in order. -/
def replayHash {L R : Type} [DecidableEq L] [DecidableEq R]
    (m : BiHashMap L R) (ps : List (L × R)) : BiHashMap L R :=
  ps.foldl (fun acc p => acc.insert p.1 p.2) m

/-- Replay of the deserialization protocol for the order-indexed
variant. -/
def replayBTree {L R : Type} [LinearOrder L] [LinearOrder R]
    (m : BiBTreeMap L R) (ps : List (L × R)) : BiBTreeMap L R :=
  ps.foldl (fun acc p => acc.insert p.1 p.2) m

theorem visitLoopHash_ok {L R E : Type} [DecidableEq L] [DecidableEq R] :
    ∀ (ps : List (L × R)) (m : BiHashMap L R),
      visitLoopHash (E := E) m (ps.map Except.ok) = Except.ok (replayHash m ps)
  | [], _ => rfl
  | (l, r) :: rest, m => visitLoopHash_ok rest (m.insert l r)

theorem visitLoopHash_error {L R E : Type} [DecidableEq L] [DecidableEq R] :
    ∀ (ps : List (L × R)) (m : BiHashMap L R) (e : E)
      (rest : List (Except E (L × R))),
      visitLoopHash m (ps.map Except.ok ++ Except.error e :: rest) =
        Except.error e
  | [], _, _, _ => rfl
  | (l, r) :: ps, m, e, rest => visitLoopHash_error ps (m.insert l r) e rest

theorem visitLoopBTree_ok {L R E : Type} [LinearOrder L] [LinearOrder R] :
    ∀ (ps : List (L × R)) (m : BiBTreeMap L R),
      visitLoopBTree (E := E) m (ps.map Except.ok) = Except.ok (replayBTree m ps)
  | [], _ => rfl
  | (l, r) :: rest, m => visitLoopBTree_ok rest (m.insert l r)

theorem visitLoopBTree_error {L R E : Type} [LinearOrder L] [LinearOrder R] :
    ∀ (ps : List (L × R)) (m : BiBTreeMap L R) (e : E)
      (rest : List (Except E (L × R))),
      visitLoopBTree m (ps.map Except.ok ++ Except.error e :: rest) =
        Except.error e
  | [], _, _, _ => rfl
  | (l, r) :: ps, m, e, rest => visitLoopBTree_error ps (m.insert l r) e rest

theorem insert_fresh_hash {L R : Type} [DecidableEq L] [DecidableEq R]
    (m : BiHashMap L R) (l : L) (r : R)
    (hl : l ∉ m.left_to_right.map Prod.fst)
    (hr : r ∉ m.right_to_left.map Prod.fst) :
    m.insert l r = ⟨m.left_to_right ++ [(l, r)], m.right_to_left ++ [(r, l)],
      m.capacity⟩ := by
  have h1 : getAssoc m.left_to_right l = none := getAssoc_eq_none.mpr hl
  have h2 : getAssoc m.right_to_left r = none := getAssoc_eq_none.mpr hr
  simp only [BiHashMap.insert, h1, h2, purgeStale]
  rw [putAssoc_of_not_mem r hl, putAssoc_of_not_mem l hr]

theorem replayHash_fresh {L R : Type} [DecidableEq L] [DecidableEq R] :
    ∀ (ps : List (L × R)) (m : BiHashMap L R),
      (m.left_to_right.map Prod.fst ++ ps.map Prod.fst).Nodup →
      (m.right_to_left.map Prod.fst ++ ps.map Prod.snd).Nodup →
      replayHash m ps = ⟨m.left_to_right ++ ps,
        m.right_to_left ++ ps.map Prod.swap, m.capacity⟩ := by
  intro ps
  induction ps with
  | nil =>
    intro m _ _
    simp [replayHash]
  | cons p rest ih =>
    obtain ⟨l, r⟩ := p
    intro m hL hR
    simp only [List.map_cons] at hL hR
    have hl : l ∉ m.left_to_right.map Prod.fst := by
      rw [List.nodup_append] at hL
      intro hmem
      exact hL.2.2 hmem (List.mem_cons_self _ _)
    have hr : r ∉ m.right_to_left.map Prod.fst := by
      rw [List.nodup_append] at hR
      intro hmem
      exact hR.2.2 hmem (List.mem_cons_self _ _)
    have hstep := insert_fresh_hash m l r hl hr
    have hL2 : (((m.left_to_right ++ [(l, r)]).map Prod.fst)
        ++ rest.map Prod.fst).Nodup := by
      simp only [List.map_append, List.append_assoc]
      simpa using hL
    have hR2 : (((m.right_to_left ++ [(r, l)]).map Prod.fst)
        ++ rest.map Prod.snd).Nodup := by
      simp only [List.map_append, List.append_assoc]
      simpa using hR
    have := ih (⟨m.left_to_right ++ [(l, r)], m.right_to_left ++ [(r, l)],
      m.capacity⟩ : BiHashMap L R) hL2 hR2
    show replayHash (m.insert l r) rest = _
    rw [hstep, this]
    simp [List.append_assoc]

theorem insert_fresh_btree {L R : Type} [LinearOrder L] [LinearOrder R]
    (m : BiBTreeMap L R) (l : L) (r : R)
    (hl : l ∉ m.left_to_right.map Prod.fst)
    (hr : r ∉ m.right_to_left.map Prod.fst) :
    m.insert l r = ⟨putSorted m.left_to_right l r,
      putSorted m.right_to_left r l⟩ := by
  have h1 : getAssoc m.left_to_right l = none := getAssoc_eq_none.mpr hl
  have h2 : getAssoc m.right_to_left r = none := getAssoc_eq_none.mpr hr
  simp only [BiBTreeMap.insert, h1, h2, purgeStale]

theorem replayBTree_fresh {L R : Type} [LinearOrder L] [LinearOrder R] :
    ∀ (ps : List (L × R)) (m : BiBTreeMap L R),
      (m.left_to_right.map Prod.fst ++ ps.map Prod.fst).Nodup →
      (m.right_to_left.map Prod.fst ++ ps.map Prod.snd).Nodup →
      (replayBTree m ps).left_to_right.Perm (m.left_to_right ++ ps) ∧
      (replayBTree m ps).right_to_left.Perm
        (m.right_to_left ++ ps.map Prod.swap) := by
  intro ps
  induction ps with
  | nil =>
    intro m _ _
    simp [replayBTree]
  | cons p rest ih =>
    obtain ⟨l, r⟩ := p
    intro m hL hR
    simp only [List.map_cons] at hL hR
    have hl : l ∉ m.left_to_right.map Prod.fst := by
      rw [List.nodup_append] at hL
      intro hmem
      exact hL.2.2 hmem (List.mem_cons_self _ _)
    have hr : r ∉ m.right_to_left.map Prod.fst := by
      rw [List.nodup_append] at hR
      intro hmem
      exact hR.2.2 hmem (List.mem_cons_self _ _)
    have hstep := insert_fresh_btree m l r hl hr
    have hpermL : (putSorted m.left_to_right l r).Perm
        ((l, r) :: m.left_to_right) := putSorted_perm r hl
    have hpermR : (putSorted m.right_to_left r l).Perm
        ((r, l) :: m.right_to_left) := putSorted_perm l hr
    set m2 : BiBTreeMap L R :=
      ⟨putSorted m.left_to_right l r, putSorted m.right_to_left r l⟩
    have hkeysL : (m2.left_to_right.map Prod.fst).Perm
        (l :: m.left_to_right.map Prod.fst) := hpermL.map Prod.fst
    have hkeysR : (m2.right_to_left.map Prod.fst).Perm
        (r :: m.right_to_left.map Prod.fst) := hpermR.map Prod.fst
    have hL2 : (m2.left_to_right.map Prod.fst ++ rest.map Prod.fst).Nodup := by
      have hperm : (m.left_to_right.map Prod.fst ++ l :: rest.map Prod.fst).Perm
          (m2.left_to_right.map Prod.fst ++ rest.map Prod.fst) :=
        List.perm_middle.trans (hkeysL.symm.append_right _)
      exact hperm.nodup hL
    have hR2 : (m2.right_to_left.map Prod.fst ++ rest.map Prod.snd).Nodup := by
      have hperm : (m.right_to_left.map Prod.fst ++ r :: rest.map Prod.snd).Perm
          (m2.right_to_left.map Prod.fst ++ rest.map Prod.snd) :=
        List.perm_middle.trans (hkeysR.symm.append_right _)
      exact hperm.nodup hR
    obtain ⟨ihL, ihR⟩ := ih m2 hL2 hR2
    constructor
    · show (replayBTree (m.insert l r) rest).left_to_right.Perm _
      rw [hstep]
      exact ihL.trans ((hpermL.append_right _).trans List.perm_middle.symm)
    · show (replayBTree (m.insert l r) rest).right_to_left.Perm _
      rw [hstep]
      exact ihR.trans ((hpermR.append_right _).trans List.perm_middle.symm)

/-- The order-indexed variant keeps the keys of both internal indexes
sorted (section 4.3: ascending left-key iteration). -/
def BiBTreeMap.sortedKeys {L R : Type} [LinearOrder L] [LinearOrder R]
    (m : BiBTreeMap L R) : Prop :=
  (m.left_to_right.map Prod.fst).Pairwise (· < ·) ∧
  (m.right_to_left.map Prod.fst).Pairwise (· < ·)

theorem sorted_insert_btree {L R : Type} [LinearOrder L] [LinearOrder R]
    {m : BiBTreeMap L R} (h : m.sortedKeys) (l : L) (r : R) :
    (m.insert l r).sortedKeys := by
  constructor
  · exact putSorted_pairwise l r
      (h.1.sublist ((purgeStale_sublist _ _).map Prod.fst))
  · exact putSorted_pairwise r l
      (h.2.sublist ((purgeStale_sublist _ _).map Prod.fst))

theorem sorted_replayBTree {L R : Type} [LinearOrder L] [LinearOrder R] :
    ∀ (ps : List (L × R)) (m : BiBTreeMap L R), m.sortedKeys →
      (replayBTree m ps).sortedKeys
  | [], _, h => h
  | (l, r) :: rest, m, h =>
    sorted_replayBTree rest (m.insert l r) (sorted_insert_btree h l r)

theorem sorted_new_btree {L R : Type} [LinearOrder L] [LinearOrder R] :
    (BiBTreeMap.new (L := L) (R := R)).sortedKeys :=
  ⟨List.Pairwise.nil, List.Pairwise.nil⟩

theorem visitLoopHash_capacity {L R E : Type} [DecidableEq L] [DecidableEq R] :
    ∀ (es : List (Except E (L × R))) (a : List (L × R)) (b : List (R × L))
      (c c' : Nat),
      Except.map (fun m : BiHashMap L R => (m.left_to_right, m.right_to_left))
        (visitLoopHash ⟨a, b, c⟩ es) =
      Except.map (fun m : BiHashMap L R => (m.left_to_right, m.right_to_left))
        (visitLoopHash ⟨a, b, c'⟩ es) := by
  intro es
  induction es with
  | nil => intro a b c c'; rfl
  | cons entry rest ih =>
    intro a b c c'
    cases entry with
    | error e => rfl
    | ok p =>
      obtain ⟨l, r⟩ := p
      show Except.map _ (visitLoopHash ((⟨a, b, c⟩ : BiHashMap L R).insert l r)
          rest) = Except.map _ (visitLoopHash
            ((⟨a, b, c'⟩ : BiHashMap L R).insert l r) rest)
      simp only [BiHashMap.insert]
      exact ih _ _ c c'

/-- C3: insert silently evicts every colliding prior pair and the
latest insertion always wins: starting from the bimap {(A,1),(B,2)},
inserting the pair (A, 2) yields exactly the bimap {(A,2)} of size 1,
with both old pairs (A,1) and (B,2) removed. -/
theorem insert_evicts_both_scenario :
    (((BiHashMap.new.insert "A" 1).insert "B" 2).insert "A" 2).left_to_right
        = [("A", 2)] ∧
    (((BiHashMap.new.insert "A" 1).insert "B" 2).insert "A" 2).len = 1 ∧
    (((BiHashMap.new.insert "A" 1).insert "B" 2).insert "A" 2).get_by_left "A"
        = some 2 ∧
    (((BiHashMap.new.insert "A" 1).insert "B" 2).insert "A" 2).get_by_left "B"
        = none ∧
    (((BiHashMap.new.insert "A" 1).insert "B" 2).insert "A" 2).get_by_right 1
        = none ∧
    (((BiHashMap.new.insert "A" 1).insert "B" 2).insert "A" 2).get_by_right 2
        = some "A" := by
  decide

/-- C5: deserializing the pair sequence [(A,1),(B,2),(C,2)], which is
not the serialization of any valid bimap, succeeds and yields a
2-element bimap in which get_by_left(A) = some 1 always holds and
exactly one of get_by_left(B) = some 2 or get_by_left(C) = some 2
holds (in this embedding the decode order is fixed, and the last
arrival (C,2) wins). -/
theorem deserialize_noncanonical_scenario :
    ∃ bm : BiHashMap String Nat,
      BiHashMapVisitor.visit_map (E := Unit) none
          ([("A", 1), ("B", 2), ("C", 2)].map Except.ok) = Except.ok bm ∧
      bm.len = 2 ∧
      bm.get_by_left "A" = some 1 ∧
      ((bm.get_by_left "B" = some 2 ∧ ¬ bm.get_by_left "C" = some 2) ∨
        (¬ bm.get_by_left "B" = some 2 ∧ bm.get_by_left "C" = some 2)) := by
  refine ⟨_, rfl, ?_, ?_, ?_⟩
  · decide
  · decide
  · right
    constructor <;> decide

/-- C2: for every decoded sequence of (L, R) pairs, the bimap returned
by deserialize equals the result of starting from an empty bimap
(pre-sized when the decoder supplies a size hint) and calling insert
once per pair in exactly the order the pairs arrive, for both the
hash-indexed and the order-indexed visitor, so the stale-pair eviction
rule of insert governs deserialization. -/
theorem visit_map_replays_insert {L R A B E : Type}
    [DecidableEq L] [DecidableEq R] [LinearOrder A] [LinearOrder B] :
    (∀ (hint : Option Nat) (ps : List (L × R)),
      BiHashMapVisitor.visit_map (E := E) hint (ps.map Except.ok) =
        Except.ok (replayHash
          (match hint with
            | some s => BiHashMap.with_capacity s
            | none => BiHashMap.new) ps)) ∧
    (∀ (hint : Option Nat) (ps : List (A × B)),
      BiBTreeMapVisitor.visit_map (E := E) hint (ps.map Except.ok) =
        Except.ok (replayBTree BiBTreeMap.new ps)) := by
  constructor
  · intro hint ps
    cases hint <;> exact visitLoopHash_ok ps _
  · intro hint ps
    exact visitLoopBTree_ok ps _

/-- C6: if the external decoder fails while producing a pair, both
visitors propagate that decoder error unchanged as their own error
result and return no bimap: the partially built instance holding the
previously decoded pairs is discarded and never observable by the
caller. -/
theorem visit_map_propagates_error {L R A B E : Type}
    [DecidableEq L] [DecidableEq R] [LinearOrder A] [LinearOrder B] :
    (∀ (hint : Option Nat) (ps : List (L × R)) (e : E)
        (rest : List (Except E (L × R))),
      BiHashMapVisitor.visit_map hint (ps.map Except.ok ++
        Except.error e :: rest) = Except.error e) ∧
    (∀ (hint : Option Nat) (ps : List (A × B)) (e : E)
        (rest : List (Except E (A × B))),
      BiBTreeMapVisitor.visit_map hint (ps.map Except.ok ++
        Except.error e :: rest) = Except.error e) := by
  constructor
  · intro hint ps e rest
    cases hint <;> exact visitLoopHash_error ps _ e rest
  · intro hint ps e rest
    exact visitLoopBTree_error ps _ e rest

/-- C9: deserialization is deterministic in its input: for every fixed
sequence of decoded entries (and fixed size hint), any two runs of
either visitor that return a bimap return the same bimap, equal also
as a set of pairs; the reconstruction itself introduces no
non-determinism. -/
theorem deserialize_deterministic {L R A B E : Type}
    [DecidableEq L] [DecidableEq R] [LinearOrder A] [LinearOrder B] :
    (∀ (hint : Option Nat) (es : List (Except E (L × R)))
        (m1 m2 : BiHashMap L R),
      BiHashMapVisitor.visit_map hint es = Except.ok m1 →
      BiHashMapVisitor.visit_map hint es = Except.ok m2 →
      m1 = m2 ∧ samePairs m1.left_to_right m2.left_to_right) ∧
    (∀ (hint : Option Nat) (es : List (Except E (A × B)))
        (m1 m2 : BiBTreeMap A B),
      BiBTreeMapVisitor.visit_map hint es = Except.ok m1 →
      BiBTreeMapVisitor.visit_map hint es = Except.ok m2 →
      m1 = m2 ∧ samePairs m1.left_to_right m2.left_to_right) := by
  constructor
  · intro hint es m1 m2 h1 h2
    rw [h1] at h2
    have h3 := Except.ok.inj h2
    exact ⟨h3, fun p => h3 ▸ Iff.rfl⟩
  · intro hint es m1 m2 h1 h2
    rw [h1] at h2
    have h3 := Except.ok.inj h2
    exact ⟨h3, fun p => h3 ▸ Iff.rfl⟩

/-- C9 witness at a concrete run. -/
theorem deserialize_deterministic_witness :
    (BiHashMap.mk [(1, 2)] [(2, 1)] 0 : BiHashMap Nat Nat) =
        BiHashMap.mk [(1, 2)] [(2, 1)] 0 ∧
      samePairs (BiHashMap.mk [(1, 2)] [(2, 1)] 0
          : BiHashMap Nat Nat).left_to_right
        (BiHashMap.mk [(1, 2)] [(2, 1)] 0 : BiHashMap Nat Nat).left_to_right :=
  (deserialize_deterministic (L := Nat) (R := Nat) (A := Nat) (B := Nat)
    (E := Unit)).1 none [Except.ok (1, 2)] _ _ rfl rfl

/-- C10: the decoder's size hint never affects the contents of the
deserialized bimap: the hash-indexed visitor builds the same two
indexes whether it starts from with_capacity(hint) or from new() (the
hint only pre-sizes the capacity), and the order-indexed visitor never
consults the hint at all. -/
theorem size_hint_irrelevant {L R A B E : Type}
    [DecidableEq L] [DecidableEq R] [LinearOrder A] [LinearOrder B] :
    (∀ (s : Nat) (es : List (Except E (L × R))),
      Except.map (fun m : BiHashMap L R => (m.left_to_right, m.right_to_left))
          (BiHashMapVisitor.visit_map (some s) es) =
        Except.map (fun m : BiHashMap L R =>
          (m.left_to_right, m.right_to_left))
          (BiHashMapVisitor.visit_map none es)) ∧
    (∀ (h1 h2 : Option Nat) (es : List (Except E (A × B))),
      BiBTreeMapVisitor.visit_map h1 es = BiBTreeMapVisitor.visit_map h2 es) := by
  constructor
  · intro s es
    exact visitLoopHash_capacity es [] [] s 0
  · intro h1 h2 es
    rfl

/-- C4: after every operation in any sequence of insert/remove
operations — including after each individual insertion step performed
during deserialization, so a deserialization stopped mid-stream leaves
a valid bimap — the two internal indexes have equal size and every
entry of one index has its mirror entry in the other (Invariants I1
and I2), starting from either constructor. -/
theorem invariants_preserved_hash {L R : Type} [DecidableEq L] [DecidableEq R] :
    (BiHashMap.new (L := L) (R := R)).WF ∧
    (∀ s : Nat, (BiHashMap.with_capacity (L := L) (R := R) s).WF) ∧
    (∀ (m : BiHashMap L R), m.WF →
      ∀ ops : List (BiOp L R), (m.applyOps ops).WF) :=
  ⟨wf_new_hash, wf_with_capacity_hash,
    fun _ h ops => wf_applyOps_hash h ops⟩

/-- C4 witness at a concrete well-formed bimap and operation list. -/
theorem invariants_preserved_hash_witness :
    (BiHashMap.mk [(1, 10)] [(10, 1)] 0 : BiHashMap Nat Nat).WF ∧
    ((BiHashMap.mk [(1, 10)] [(10, 1)] 0 : BiHashMap Nat Nat).applyOps
      [BiOp.ins 2 20, BiOp.ins 1 20, BiOp.rml 2]).WF :=
  ⟨by unfold BiHashMap.WF WFpair; decide,
    invariants_preserved_hash.2.2 _ (by unfold BiHashMap.WF WFpair; decide) _⟩

/-- C8: for the order-indexed variant, iter() — and hence the pair
sequence that serialize emits — yields the contained pairs in strictly
ascending order of the left value, for every bimap built by any
insertion sequence, regardless of the order of insertion. -/
theorem btree_iter_sorted {L R : Type} [LinearOrder L] [LinearOrder R] :
    ∀ ps : List (L × R),
      (((replayBTree BiBTreeMap.new ps).iter).map Prod.fst).Pairwise (· < ·) ∧
      (replayBTree BiBTreeMap.new ps).serialize =
        (replayBTree BiBTreeMap.new ps).iter := by
  intro ps
  exact ⟨(sorted_replayBTree ps BiBTreeMap.new sorted_new_btree).1, rfl⟩

/-- C7: for every bimap, serialize emits exactly len() pairs, in the
iteration order of iter(), with no duplicated pair and no metadata
beyond the pairs themselves (the output is just the pair sequence, the
same shape as a plain map holding the same pairs); serializing an
empty bimap emits the empty sequence. -/
theorem serialize_shape {L R A B : Type}
    [DecidableEq L] [DecidableEq R] [LinearOrder A] [LinearOrder B] :
    (∀ m : BiHashMap L R, m.serialize = m.iter ∧
      m.serialize.length = m.len ∧ (m.WF → m.serialize.Nodup)) ∧
    (BiHashMap.new (L := L) (R := R)).serialize = [] ∧
    (∀ m : BiBTreeMap A B, m.serialize = m.iter ∧
      m.serialize.length = m.len ∧ (m.WF → m.serialize.Nodup)) ∧
    (BiBTreeMap.new (L := A) (R := B)).serialize = [] :=
  ⟨fun _ => ⟨rfl, rfl, fun h => h.1.of_map⟩, rfl,
   fun _ => ⟨rfl, rfl, fun h => h.1.of_map⟩, rfl⟩

/-- C7 witness at concrete well-formed bimaps of both variants. -/
theorem serialize_shape_witness :
    (BiHashMap.mk [(1, 10), (2, 20)] [(10, 1), (20, 2)] 0
      : BiHashMap Nat Nat).serialize.Nodup ∧
    (BiBTreeMap.mk [(1, 10), (2, 20)] [(10, 1), (20, 2)]
      : BiBTreeMap Nat Nat).serialize.Nodup :=
  ⟨((serialize_shape (L := Nat) (R := Nat) (A := Nat) (B := Nat)).1 _).2.2
      (by unfold BiHashMap.WF WFpair; decide),
   ((serialize_shape (L := Nat) (R := Nat) (A := Nat) (B := Nat)).2.2.1 _).2.2
      (by unfold BiBTreeMap.WF WFpair; decide)⟩

theorem replayHash_from_empty {L R : Type} [DecidableEq L] [DecidableEq R]
    (ps : List (L × R)) (c : Nat)
    (h1 : (ps.map Prod.fst).Nodup) (h2 : (ps.map Prod.snd).Nodup) :
    replayHash ⟨[], [], c⟩ ps = ⟨ps, ps.map Prod.swap, c⟩ := by
  have h := replayHash_fresh ps ⟨[], [], c⟩ (by simpa) (by simpa)
  simpa using h

/-- C1: for every bimap whose pairs contain no cross-collisions (a
well-formed bimap), deserializing the sequence of pairs produced by
serializing it yields a bimap equal to it, as the same set of (L, R)
pairs, for both the hash-indexed and the order-indexed variant and
for any size hint. -/
theorem deserialize_serialize_roundtrip {L R A B : Type}
    [DecidableEq L] [DecidableEq R] [LinearOrder A] [LinearOrder B] :
    (∀ (m : BiHashMap L R), m.WF → ∀ hint : Option Nat,
      ∃ m2 : BiHashMap L R,
        BiHashMapVisitor.visit_map (E := Unit) hint
            (m.serialize.map Except.ok) = Except.ok m2 ∧
        samePairs m2.left_to_right m.left_to_right) ∧
    (∀ (m : BiBTreeMap A B), m.WF → ∀ hint : Option Nat,
      ∃ m2 : BiBTreeMap A B,
        BiBTreeMapVisitor.visit_map (E := Unit) hint
            (m.serialize.map Except.ok) = Except.ok m2 ∧
        samePairs m2.left_to_right m.left_to_right) := by
  constructor
  · intro m hWF hint
    have hsnd : (m.serialize.map Prod.snd).Nodup :=
      snd_nodup_of_mirror hWF.1 hWF.2.2.1
    cases hint with
    | none =>
      refine ⟨replayHash (⟨[], [], 0⟩ : BiHashMap L R) m.serialize,
        visitLoopHash_ok _ _, ?_⟩
      rw [replayHash_from_empty m.serialize 0 hWF.1 hsnd]
      exact fun p => Iff.rfl
    | some s =>
      refine ⟨replayHash (⟨[], [], s⟩ : BiHashMap L R) m.serialize,
        visitLoopHash_ok _ _, ?_⟩
      rw [replayHash_from_empty m.serialize s hWF.1 hsnd]
      exact fun p => Iff.rfl
  · intro m hWF hint
    have hsnd : (m.serialize.map Prod.snd).Nodup :=
      snd_nodup_of_mirror hWF.1 hWF.2.2.1
    refine ⟨_, visitLoopBTree_ok _ _, ?_⟩
    have hperm := (replayBTree_fresh m.serialize BiBTreeMap.new
      (by simpa using hWF.1) (by simpa using hsnd)).1
    exact fun p => hperm.mem_iff

/-- C1 witness at concrete well-formed bimaps of both variants. -/
theorem deserialize_serialize_roundtrip_witness :
    (∃ m2 : BiHashMap Nat Nat,
      BiHashMapVisitor.visit_map (E := Unit) none
          ((BiHashMap.mk [(1, 10), (2, 20)] [(10, 1), (20, 2)] 0
            : BiHashMap Nat Nat).serialize.map Except.ok) = Except.ok m2 ∧
      samePairs m2.left_to_right
        (BiHashMap.mk [(1, 10), (2, 20)] [(10, 1), (20, 2)] 0
          : BiHashMap Nat Nat).left_to_right) ∧
    (∃ m2 : BiBTreeMap Nat Nat,
      BiBTreeMapVisitor.visit_map (E := Unit) none
          ((BiBTreeMap.mk [(1, 10), (2, 20)] [(10, 1), (20, 2)]
            : BiBTreeMap Nat Nat).serialize.map Except.ok) = Except.ok m2 ∧
      samePairs m2.left_to_right
        (BiBTreeMap.mk [(1, 10), (2, 20)] [(10, 1), (20, 2)]
          : BiBTreeMap Nat Nat).left_to_right) :=
  ⟨(deserialize_serialize_roundtrip (L := Nat) (R := Nat) (A := Nat)
      (B := Nat)).1 _ (by unfold BiHashMap.WF WFpair; decide) none,
   (deserialize_serialize_roundtrip (L := Nat) (R := Nat) (A := Nat)
      (B := Nat)).2 _ (by unfold BiBTreeMap.WF WFpair; decide) none⟩
